import Mathlib

/-!
Verification development for the `ulc_in_rust` repository: a shallow
embedding of the untyped-lambda-calculus evaluator (`src/ulc`) and its
near-duplicate (`src/fi_lang`), together with theorems settling the
frozen specification claims.

Evaluation in the source (`interpret`/`apply` in
`src/ulc/interpretation.rs`) is genuinely recursive and need not
terminate, so the embedding adds an explicit fuel parameter counting the
depth of nested `interpret` invocations: `interpret fuel env t = none`
means the recursion-depth budget `fuel` was exhausted before evaluation
completed, and `some r` means the source returns `r` (a value or an
error string) while nesting `interpret` calls at most `fuel` deep.
Everything else is a direct transcription of the Rust code.
-/

set_option linter.unusedVariables false

namespace Ulc

/-- Transcribes `NameIntro` from `src/ulc/syntax.rs`: a binding-site name. -/
structure NameIntro where
  label : String
  deriving DecidableEq

/-- Transcribes `NameRef` from `src/ulc/syntax.rs`: a use-site reference with a
label and a de Bruijn index. -/
structure NameRef where
  label : String
  index : Nat
  deriving DecidableEq

/-- Transcribes `enum Term` from `src/ulc/syntax.rs`.  `Vec<Box<Term>>` becomes
`List Term`. -/
inductive Term where
  | Lam (intro : NameIntro) (body : Term)
  | Neu (applicant : NameRef) (arguments : List Term)
  | Def (intro : NameIntro) (binding : Term) (body : Term)

/-- Transcribes `enum Val` from `src/ulc/syntax.rs`: the single `Lam` variant,
a closure.  The `Box<Env>` field is inlined as the list of bindings. -/
inductive Val where
  | Lam (intro : NameIntro) (body : Term) (closure : List (NameIntro × Val))

/-- Transcribes `struct Env` from `src/ulc/syntax.rs`: the `bindings` vector,
most recently bound first (the Rust `extend` does `insert(0, ..)`). -/
abbrev Env := List (NameIntro × Val)

/-- Transcribes `Env::extend`: clone the bindings and insert the new pair at
position 0, i.e. a pure prepend.  The receiver is not mutated. -/
def Env.extend (env : Env) (intro : NameIntro) (val : Val) : Env :=
  (intro, val) :: env

/-- Error string built by `Env::lookup` when the stored label differs from the
reference's label (the `NameMismatch` failure). -/
def msgNameMismatch (index : Nat) (expected actual : String) : String :=
  "environment\x27s binding at index `" ++ toString index ++
    "` was expected to have the name `" ++ expected ++
    "` but it actually has the name `" ++ actual ++ "`"

/-- Error string built by `Env::lookup` when the index is out of range (the
`UnboundReference` failure). -/
def msgUnboundReference (index : Nat) (label : String) : String :=
  "environment doesn\x27t have binding at index `" ++ toString index ++
    "` of name `" ++ label ++ "`"

/-- Transcribes `Env::lookup` from `src/ulc/syntax.rs`: fetch the pair at
position `index`; verify the stored label; fail otherwise. -/
def Env.lookup (env : Env) (x : NameRef) : Except String Val :=
  match env[x.index]? with
  | some (y, v) =>
    if y.label = x.label then .ok v
    else .error (msgNameMismatch x.index x.label y.label)
  | none => .error (msgUnboundReference x.index x.label)

/-- Left-to-right, short-circuiting evaluation of a list, transcribing the
`iter().map(..).collect::<Result<Vec<_>, _>>()` loop used for spine
arguments in `interpret`. -/
def evalList {α β : Type} (ev : α → Option (Except String β)) :
    List α → Option (Except String (List β))
  | [] => some (.ok [])
  | a :: rest =>
    match ev a with
    | none => none
    | some (.error e) => some (.error e)
    | some (.ok v) =>
      match evalList ev rest with
      | none => none
      | some (.error e) => some (.error e)
      | some (.ok vs) => some (.ok (v :: vs))

/-- Transcribes the loop body of `apply` from `src/ulc/interpretation.rs`,
abstracted over the evaluator `ev` used on closure bodies (in the source this
is the recursive call to `interpret`). -/
def applyAux (ev : Env → Term → Option (Except String Val)) :
    Val → List Val → Option (Except String Val)
  | v, [] => some (.ok v)
  | .Lam intro body closure, a :: rest =>
    match ev (Env.extend closure intro a) body with
    | none => none
    | some (.error e) => some (.error e)
    | some (.ok v2) => applyAux ev v2 rest

/-- Transcribes `interpret` from `src/ulc/interpretation.rs`, with fuel
counting the nesting depth of `interpret` invocations: each recursive entry
into `interpret` (directly, through argument evaluation, or through `apply`)
costs one unit. -/
def interpret : Nat → Env → Term → Option (Except String Val)
  | 0, _, _ => none
  | _ + 1, env, .Lam intro body => some (.ok (.Lam intro body env))
  | f + 1, env, .Neu applicant arguments =>
    match evalList (fun a => interpret f env a) arguments with
    | none => none
    | some (.error e) => some (.error e)
    | some (.ok vals) =>
      match Env.lookup env applicant with
      | .error e => some (.error e)
      | .ok v => applyAux (fun e2 t2 => interpret f e2 t2) v vals
  | f + 1, env, .Def intro binding body =>
    match interpret f env binding with
    | none => none
    | some (.error e) => some (.error e)
    | some (.ok v) => interpret f (Env.extend env intro v) body

/-- Transcribes `apply` from `src/ulc/interpretation.rs`: the argument loop,
evaluating closure bodies with `interpret` at depth budget `fuel`. -/
def apply (fuel : Nat) (applicant : Val) (arguments : List Val) :
    Option (Except String Val) :=
  applyAux (fun e t => interpret fuel e t) applicant arguments

/-- Transcribes `enum TermBuilder` from `src/ulc/syntax.rs`: the surface
syntax, with plain string names and optional explicit indices. -/
inductive TermBuilder where
  | Lam (name : String) (body : TermBuilder)
  | Neu (applicant : String × Option Nat) (arguments : List TermBuilder)
  | Def (name : String) (binding : TermBuilder) (body : TermBuilder)

/-- Transcribes `ctx.iter().position(..)` as used by the resolver: index of the
first entry equal to `name`, nearest binder first. -/
def positionOf (name : String) : List String → Option Nat
  | [] => none
  | s :: rest => if name = s then some 0 else (positionOf name rest).map (· + 1)

/-- Renders a resolution context the way Rust `{:?}` prints a `Vec<String>`
with ordinary labels: each label in double quotes, comma separated, inside
square brackets.  Escaping of special characters inside a label is not
modelled. -/
def ctxDebug (ctx : List String) : String :=
  "[" ++ String.intercalate ", " (ctx.map (fun s => "\"" ++ s ++ "\"")) ++ "]"

/-- Error string built by `from_term_builder_to_term` when an explicit index
fails the context consistency check (the `InvalidNameRef` failure; both Rust
call sites format the same message). -/
def msgInvalidNameRef (label : String) (index : Nat) (ctx : List String) :
    String :=
  "the name ref with label `" ++ label ++ "` and index `" ++ toString index ++
    "` is invalid in the context `" ++ ctxDebug ctx ++ "`"

/-- Error string built by `from_term_builder_to_term` when an automatic search
finds no binder for the label (the `UnboundName` failure). -/
def msgUnboundName (label : String) (ctx : List String) : String :=
  "the name ref with label `" ++ label ++ "` is invalid in the context `" ++
    ctxDebug ctx ++ "`"

mutual

/-- Transcribes `from_term_builder_to_term` from `src/ulc/syntax.rs`: resolve
a surface term under a context of labels, nearest binder first.  For a spine,
the applicant is resolved before the arguments, as in the source. -/
def from_term_builder_to_term : List String → TermBuilder → Except String Term
  | ctx, .Lam name body => do
    let b ← from_term_builder_to_term (name :: ctx) body
    .ok (.Lam ⟨name⟩ b)
  | ctx, .Neu (name, idx) args => do
    let applicant ← match idx with
      | some i =>
        match ctx[i]? with
        | none => Except.error (msgInvalidNameRef name i ctx)
        | some actual =>
          if name = actual then Except.ok (NameRef.mk name i)
          else Except.error (msgInvalidNameRef name i ctx)
      | none =>
        match positionOf name ctx with
        | some i => Except.ok (NameRef.mk name i)
        | none => Except.error (msgUnboundName name ctx)
    let ts ← from_term_builder_args ctx args
    .ok (.Neu applicant ts)
  | ctx, .Def name binding body => do
    let b ← from_term_builder_to_term ctx binding
    let c ← from_term_builder_to_term (name :: ctx) body
    .ok (.Def ⟨name⟩ b c)

/-- Transcribes the `arguments.iter().map(..).collect::<Result<..>>()` loop of
`from_term_builder_to_term`: resolve the spine arguments left to right,
short-circuiting on the first failure. -/
def from_term_builder_args : List String → List TermBuilder →
    Except String (List Term)
  | _, [] => .ok []
  | ctx, a :: rest => do
    let t ← from_term_builder_to_term ctx a
    let ts ← from_term_builder_args ctx rest
    .ok (t :: ts)

end

/-- Transcribes `impl From<TermBuilder> for Term` from `src/ulc/syntax.rs`:
`from_term_builder_to_term(vec![], &term).unwrap()`.  The `.unwrap()` panics
on a resolution error, so the panic outcome is modelled as `none`; `some t`
models a normal return of `t`. -/
def termFromBuilder (tb : TermBuilder) : Option Term :=
  match from_term_builder_to_term [] tb with
  | .ok t => some t
  | .error _ => none

mutual

/-- Rebuilds the surface term of a core term with every resolved index made
explicit: each use occurrence `label#index` becomes the builder occurrence
`(label, some index)`. -/
def withIndices : Term → TermBuilder
  | .Lam intro body => .Lam intro.label (withIndices body)
  | .Neu app args => .Neu (app.label, some app.index) (withIndicesArgs args)
  | .Def intro binding body =>
    .Def intro.label (withIndices binding) (withIndices body)

/-- Spine-argument part of `withIndices`. -/
def withIndicesArgs : List Term → List TermBuilder
  | [] => []
  | a :: rest => withIndices a :: withIndicesArgs rest

end

mutual

/-- Holds when every use occurrence of a surface term carries no explicit
index. -/
def noExplicitIndices : TermBuilder → Bool
  | .Lam _ body => noExplicitIndices body
  | .Neu (_, idx) args => idx.isNone && noExplicitIndicesArgs args
  | .Def _ binding body => noExplicitIndices binding && noExplicitIndices body

/-- Spine-argument part of `noExplicitIndices`. -/
def noExplicitIndicesArgs : List TermBuilder → Bool
  | [] => true
  | a :: rest => noExplicitIndices a && noExplicitIndicesArgs rest

end

/-- Labels of an environment, nearest binding first: the runtime image of a
resolution context. -/
def envLabels (env : Env) : List String :=
  env.map (fun p => p.1.label)

/-- Well-scopedness of a core term with respect to a context of labels: every
reference's index points at an entry carrying the reference's label.  This is
exactly the invariant the name resolver establishes. -/
inductive TermWS : List String → Term → Prop where
  | lam {ctx : List String} {intro : NameIntro} {body : Term} :
    TermWS (intro.label :: ctx) body → TermWS ctx (.Lam intro body)
  | neu {ctx : List String} {app : NameRef} {args : List Term} :
    ctx[app.index]? = some app.label → (∀ a ∈ args, TermWS ctx a) →
    TermWS ctx (.Neu app args)
  | defn {ctx : List String} {intro : NameIntro} {binding body : Term} :
    TermWS ctx binding → TermWS (intro.label :: ctx) body →
    TermWS ctx (.Def intro binding body)

/-- Well-scopedness of a closure value: the captured environment is
well-scoped and the suspended body is well-scoped in the context formed by the
parameter label over the captured labels. -/
inductive ValWS : Val → Prop where
  | lam {intro : NameIntro} {body : Term}
      {closure : List (NameIntro × Val)} :
    (∀ p ∈ closure, ValWS p.2) →
    TermWS (intro.label :: closure.map (fun p => p.1.label)) body →
    ValWS (.Lam intro body closure)

/-- Well-scopedness of an environment: every stored value is well-scoped. -/
def EnvWS (env : Env) : Prop :=
  ∀ p ∈ env, ValWS p.2

/-- States that an evaluation outcome is not a runtime error: either fuel ran
out, or a well-scoped value was produced. -/
def goodRes : Option (Except String Val) → Prop
  | none => True
  | some (.error _) => False
  | some (.ok v) => ValWS v

/-- Boolean test for an evaluation outcome being a runtime error. -/
def isError : Option (Except String Val) → Bool
  | some (.error _) => true
  | _ => false

mutual

/-- Nesting depth of a term. -/
def depth : Term → Nat
  | .Lam _ body => 1 + depth body
  | .Neu _ args => 1 + depthArgs args
  | .Def _ binding body => 1 + max (depth binding) (depth body)

/-- Nesting depth of a list of spine arguments. -/
def depthArgs : List Term → Nat
  | [] => 0
  | a :: rest => max (depth a) (depthArgs rest)

end

/-- Holds when every application spine in the term has zero arguments, so
evaluation never re-enters `interpret` through `apply`. -/
def appFree : Term → Bool
  | .Lam _ body => appFree body
  | .Neu _ args => args.isEmpty
  | .Def _ binding body => appFree binding && appFree body

/-- Per the spec sentence on curry/apply agreement: apply the closure to the
arguments one at a time, each step a singleton `apply`, threading successes
and stopping on the first failure. -/
def applyOneAtATime (fuel : Nat) (v : Val) (args : List Val) :
    Option (Except String Val) :=
  args.foldl
    (fun acc a =>
      match acc with
      | some (.ok w) => apply fuel w [a]
      | other => other)
    (some (.ok v))

/-- A concrete closure value, used to populate sample environments. -/
def sampleVal : Val :=
  .Lam ⟨"x"⟩ (.Neu ⟨"x", 0⟩ []) []

/-- A resolution error message carries either a label with its attempted
index and the full context, or a label with the full context: the two
message shapes `from_term_builder_to_term` can produce. -/
def errorShape (e : String) : Prop :=
  (∃ l i c, e = msgInvalidNameRef l i c) ∨ (∃ l c, e = msgUnboundName l c)

/-- States that evaluating a list of spine arguments produced no runtime
error: either fuel ran out, or every produced value is well-scoped. -/
def goodResList : Option (Except String (List Val)) → Prop
  | none => True
  | some (.error _) => False
  | some (.ok vs) => ∀ u ∈ vs, ValWS u

/-- The self-application term `def w = λx (x#0 x#0) in (w#0 w#0)`, on which
the source evaluator loops forever. -/
def omegaTerm : Term :=
  .Def ⟨"w"⟩ (.Lam ⟨"x"⟩ (.Neu ⟨"x", 0⟩ [.Neu ⟨"x", 0⟩ []]))
    (.Neu ⟨"w", 0⟩ [.Neu ⟨"w", 0⟩ []])

/-- The closure value of `λx (x#0 x#0)` in the empty environment: the value
repeatedly applied to itself while evaluating `omegaTerm`. -/
def omegaClosure : Val :=
  .Lam ⟨"x"⟩ (.Neu ⟨"x", 0⟩ [.Neu ⟨"x", 0⟩ []]) []

end Ulc

namespace FiLang

/-- Transcribes `enum Term` from `src/fi_lang/syntax.rs`: identical to the
`ulc` one except that the binding variant is named `Let`.  The `NameIntro`
and `NameRef` structs of `src/fi_lang/syntax.rs` are field-for-field
identical to the `ulc` ones, so the embedding shares those types (the
bijection of the spec is the identity on them). -/
inductive Term where
  | Lam (intro : Ulc.NameIntro) (body : Term)
  | Neu (applicant : Ulc.NameRef) (arguments : List Term)
  | Let (intro : Ulc.NameIntro) (binding : Term) (body : Term)

/-- Transcribes `enum Val` from `src/fi_lang/syntax.rs`. -/
inductive Val where
  | Lam (intro : Ulc.NameIntro) (body : Term)
      (closure : List (Ulc.NameIntro × Val))

/-- Transcribes `struct Env` from `src/fi_lang/syntax.rs`. -/
abbrev Env := List (Ulc.NameIntro × Val)

/-- Transcribes `Env::extend` from `src/fi_lang/syntax.rs`. -/
def Env.extend (env : Env) (intro : Ulc.NameIntro) (val : Val) : Env :=
  (intro, val) :: env

/-- Transcribes `Env::lookup` from `src/fi_lang/syntax.rs`; its two `format!`
strings are character-for-character the same as the `ulc` ones, so the same
message helpers are used. -/
def Env.lookup (env : Env) (x : Ulc.NameRef) : Except String Val :=
  match env[x.index]? with
  | some (y, v) =>
    if y.label = x.label then .ok v
    else .error (Ulc.msgNameMismatch x.index x.label y.label)
  | none => .error (Ulc.msgUnboundReference x.index x.label)

/-- Transcribes the loop body of `apply` from
`src/fi_lang/interpretation.rs`, abstracted over the evaluator used on
closure bodies. -/
def applyAux (ev : Env → Term → Option (Except String Val)) :
    Val → List Val → Option (Except String Val)
  | v, [] => some (.ok v)
  | .Lam intro body closure, a :: rest =>
    match ev (Env.extend closure intro a) body with
    | none => none
    | some (.error e) => some (.error e)
    | some (.ok v2) => applyAux ev v2 rest

/-- Transcribes `interpret` from `src/fi_lang/interpretation.rs`, with the
same fuel discipline as the `ulc` embedding. -/
def interpret : Nat → Env → Term → Option (Except String Val)
  | 0, _, _ => none
  | _ + 1, env, .Lam intro body => some (.ok (.Lam intro body env))
  | f + 1, env, .Neu applicant arguments =>
    match Ulc.evalList (fun a => interpret f env a) arguments with
    | none => none
    | some (.error e) => some (.error e)
    | some (.ok vals) =>
      match Env.lookup env applicant with
      | .error e => some (.error e)
      | .ok v => applyAux (fun e2 t2 => interpret f e2 t2) v vals
  | f + 1, env, .Let intro binding body =>
    match interpret f env binding with
    | none => none
    | some (.error e) => some (.error e)
    | some (.ok v) => interpret f (Env.extend env intro v) body

mutual

/-- The structure-preserving bijection on terms from `fi_lang` to `ulc`:
`Let` becomes `Def`; labels, indices and argument order are kept. -/
def toUlcTerm : Term → Ulc.Term
  | .Lam intro body => .Lam intro (toUlcTerm body)
  | .Neu app args => .Neu app (toUlcArgs args)
  | .Let intro binding body =>
    .Def intro (toUlcTerm binding) (toUlcTerm body)

/-- Spine-argument part of `toUlcTerm`. -/
def toUlcArgs : List Term → List Ulc.Term
  | [] => []
  | a :: rest => toUlcTerm a :: toUlcArgs rest

end

mutual

/-- The bijection on values induced by `toUlcTerm`. -/
def toUlcVal : Val → Ulc.Val
  | .Lam intro body closure => .Lam intro (toUlcTerm body) (toUlcEnv closure)

/-- The bijection on environments induced by `toUlcVal`. -/
def toUlcEnv : Env → Ulc.Env
  | [] => []
  | (n, v) :: rest => (n, toUlcVal v) :: toUlcEnv rest

end

/-- The bijection on argument-evaluation outcomes: values are mapped by
`toUlcVal` pointwise. -/
def toUlcResList :
    Option (Except String (List Val)) → Option (Except String (List Ulc.Val))
  | none => none
  | some (.error e) => some (.error e)
  | some (.ok vs) => some (.ok (vs.map toUlcVal))

/-- The bijection on evaluation outcomes: out-of-fuel and error messages are
kept as they are, values are mapped by `toUlcVal`. -/
def toUlcRes : Option (Except String Val) → Option (Except String Ulc.Val)
  | none => none
  | some (.error e) => some (.error e)
  | some (.ok v) => some (.ok (toUlcVal v))

end FiLang

namespace Ulc

theorem applyAux_cons (ev : Env → Term → Option (Except String Val))
    (v : Val) (a : Val) (rest : List Val) :
    applyAux ev v (a :: rest) =
      match applyAux ev v [a] with
      | some (.ok w) => applyAux ev w rest
      | other => other := by
  cases v with
  | Lam intro body closure =>
    cases h : ev (Env.extend closure intro a) body with
    | none => simp [applyAux, h]
    | some r =>
      cases r with
      | error e => simp [applyAux, h]
      | ok v2 => simp [applyAux, h]

theorem apply_cons (fuel : Nat) (v : Val) (a : Val) (rest : List Val) :
    apply fuel v (a :: rest) =
      match apply fuel v [a] with
      | some (.ok w) => apply fuel w rest
      | other => other :=
  applyAux_cons (fun e t => interpret fuel e t) v a rest

theorem foldl_applyStep_none (fuel : Nat) (l : List Val) :
    l.foldl
      (fun (acc : Option (Except String Val)) (a : Val) =>
        match acc with
        | some (.ok w) => apply fuel w [a]
        | other => other)
      none = none := by
  induction l with
  | nil => rfl
  | cons a rest ih => exact ih

theorem foldl_applyStep_error (fuel : Nat) (l : List Val) (e : String) :
    l.foldl
      (fun (acc : Option (Except String Val)) (a : Val) =>
        match acc with
        | some (.ok w) => apply fuel w [a]
        | other => other)
      (some (.error e)) = some (.error e) := by
  induction l with
  | nil => rfl
  | cons a rest ih => exact ih

theorem evalList_append_error {β : Type}
    (ev : Term → Option (Except String β)) (pre : List Term) (a : Term)
    (post : List Term) (vs : List β) (e : String)
    (hpre : evalList ev pre = some (.ok vs))
    (ha : ev a = some (.error e)) :
    evalList ev (pre ++ a :: post) = some (.error e) := by
  induction pre generalizing vs with
  | nil => simp [evalList, ha]
  | cons p pre2 ih =>
    rw [evalList] at hpre
    cases hp : ev p with
    | none => rw [hp] at hpre; exact absurd hpre (by simp)
    | some r =>
      cases r with
      | error e2 => rw [hp] at hpre; exact absurd hpre (by simp)
      | ok v =>
        rw [hp] at hpre
        cases hrest : evalList ev pre2 with
        | none => rw [hrest] at hpre; exact absurd hpre (by simp)
        | some r2 =>
          cases r2 with
          | error e2 => rw [hrest] at hpre; exact absurd hpre (by simp)
          | ok vs2 =>
            rw [List.cons_append, evalList, hp, ih vs2 hrest]

end Ulc

/-- C1 helper: on application-free terms, evaluation completes within a
recursion-depth budget equal to the nesting depth of the term. -/
theorem interpret_appFree_total :
    ∀ (t : Ulc.Term) (env : Ulc.Env) (fuel : Nat), Ulc.appFree t = true →
      Ulc.depth t ≤ fuel → Ulc.interpret fuel env t ≠ none
  | .Lam intro body, env, fuel, hf, hd => by
    have hd1 : 1 + Ulc.depth body ≤ fuel := by simpa [Ulc.depth] using hd
    cases fuel with
    | zero => omega
    | succ f => simp [Ulc.interpret]
  | .Neu app args, env, fuel, hf, hd => by
    have hargs : args = [] := by
      simpa [Ulc.appFree, List.isEmpty_iff] using hf
    subst hargs
    have hd1 : 1 + Ulc.depthArgs [] ≤ fuel := by simpa [Ulc.depth] using hd
    cases fuel with
    | zero => omega
    | succ f =>
      rw [Ulc.interpret]
      cases h : Ulc.Env.lookup env app with
      | error e => simp [Ulc.evalList, h]
      | ok v => simp [Ulc.evalList, h, Ulc.applyAux]
  | .Def intro binding body, env, fuel, hf, hd => by
    rw [Ulc.appFree, Bool.and_eq_true] at hf
    have hd1 : 1 + max (Ulc.depth binding) (Ulc.depth body) ≤ fuel := by
      simpa [Ulc.depth] using hd
    cases fuel with
    | zero => omega
    | succ f =>
      have hmax : max (Ulc.depth binding) (Ulc.depth body) ≤ f := by omega
      have hbinding : Ulc.depth binding ≤ f := (Nat.max_le.mp hmax).1
      have hbody : Ulc.depth body ≤ f := (Nat.max_le.mp hmax).2
      rw [Ulc.interpret]
      cases hb : Ulc.interpret f env binding with
      | none =>
        exact absurd hb (interpret_appFree_total binding env f hf.1 hbinding)
      | some r =>
        cases r with
        | error e => simp
        | ok v =>
          simpa using
            interpret_appFree_total body (Ulc.Env.extend env intro v) f
              hf.2 hbody

/-- C1: amended.  The evaluator need not run to completion: on every
application-free term (every spine has zero arguments) `interpret` completes
within recursion depth equal to the term's nesting depth, but terms with
spine arguments can make `apply` re-enter evaluation of closure bodies beyond
any bound given by the input term, and on the self-application term
`omegaTerm` evaluation never completes (see the counterexample theorem). -/
theorem claim_C1_amended_appFree_terminates (t : Ulc.Term) (env : Ulc.Env)
    (fuel : Nat) (hf : Ulc.appFree t = true) (hd : Ulc.depth t ≤ fuel) :
    Ulc.interpret fuel env t ≠ none :=
  interpret_appFree_total t env fuel hf hd

/-- C1 witness: the amended theorem applied to `λx x#0` with fuel 2. -/
theorem claim_C1_witness :
    Ulc.interpret 2 [] (.Lam ⟨"x"⟩ (.Neu ⟨"x", 0⟩ [])) ≠ none :=
  claim_C1_amended_appFree_terminates (.Lam ⟨"x"⟩ (.Neu ⟨"x", 0⟩ [])) [] 2
    rfl (by simp [Ulc.depth, Ulc.depthArgs])

theorem omega_x_loop_diverges :
    ∀ (f : Nat),
      Ulc.interpret f [(⟨"x"⟩, Ulc.omegaClosure)]
        (.Neu ⟨"x", 0⟩ [.Neu ⟨"x", 0⟩ []]) = none
  | 0 => rfl
  | 1 => rfl
  | g + 2 => by
    have key : Ulc.interpret (g + 2) [(⟨"x"⟩, Ulc.omegaClosure)]
        (.Neu ⟨"x", 0⟩ [.Neu ⟨"x", 0⟩ []]) =
        (match Ulc.interpret (g + 1) [(⟨"x"⟩, Ulc.omegaClosure)]
            (.Neu ⟨"x", 0⟩ [.Neu ⟨"x", 0⟩ []]) with
          | none => none
          | some (.error e) => some (.error e)
          | some (.ok v2) =>
            Ulc.applyAux (fun e t => Ulc.interpret (g + 1) e t) v2 []) := rfl
    rw [key, omega_x_loop_diverges (g + 1)]

theorem omega_w_loop_diverges :
    ∀ (f : Nat),
      Ulc.interpret f [(⟨"w"⟩, Ulc.omegaClosure)]
        (.Neu ⟨"w", 0⟩ [.Neu ⟨"w", 0⟩ []]) = none
  | 0 => rfl
  | 1 => rfl
  | g + 2 => by
    have key : Ulc.interpret (g + 2) [(⟨"w"⟩, Ulc.omegaClosure)]
        (.Neu ⟨"w", 0⟩ [.Neu ⟨"w", 0⟩ []]) =
        (match Ulc.interpret (g + 1) [(⟨"x"⟩, Ulc.omegaClosure)]
            (.Neu ⟨"x", 0⟩ [.Neu ⟨"x", 0⟩ []]) with
          | none => none
          | some (.error e) => some (.error e)
          | some (.ok v2) =>
            Ulc.applyAux (fun e t => Ulc.interpret (g + 1) e t) v2 []) := rfl
    rw [key, omega_x_loop_diverges (g + 1)]

/-- On `omegaTerm`, evaluation exhausts every recursion-depth budget: the
source evaluator never returns. -/
theorem omega_diverges :
    ∀ (f : Nat), Ulc.interpret f [] Ulc.omegaTerm = none
  | 0 => rfl
  | 1 => rfl
  | g + 2 => by
    have key : Ulc.interpret (g + 2) [] Ulc.omegaTerm =
        Ulc.interpret (g + 1) [(⟨"w"⟩, Ulc.omegaClosure)]
          (.Neu ⟨"w", 0⟩ [.Neu ⟨"w", 0⟩ []]) := rfl
    rw [key, omega_w_loop_diverges (g + 1)]

/-- C1 counterexample: the self-application term `omegaTerm` has nesting
depth 4, yet evaluation has not completed within recursion depth 50 (and, by
`omega_diverges`, within any depth at all): the recursion depth of evaluation
is not bounded by the nesting depth (size) of the input term, and evaluation
does not run to completion on it. -/
theorem claim_C1_counterexample :
    Ulc.depth Ulc.omegaTerm ≤ 50 ∧ Ulc.interpret 50 [] Ulc.omegaTerm = none := by
  constructor
  · simp [Ulc.omegaTerm, Ulc.depth, Ulc.depthArgs]
  · rfl

/-- C3: when evaluating a spine `Neu applicant arguments`, the arguments are
evaluated left to right in the current environment; a failure in any argument
is returned immediately, before later arguments are evaluated and without
looking up the applicant; otherwise the applicant is resolved with `lookup`
(failing as lookup fails) and applied to the evaluated arguments in order;
with an empty spine the result is exactly the looked-up value. -/
theorem claim_C3 :
    (∀ (f : Nat) (env : Ulc.Env) (app : Ulc.NameRef) (pre : List Ulc.Term)
        (a : Ulc.Term) (post : List Ulc.Term) (vs : List Ulc.Val) (e : String),
      Ulc.evalList (fun t => Ulc.interpret f env t) pre = some (.ok vs) →
      Ulc.interpret f env a = some (.error e) →
      Ulc.interpret (f + 1) env (.Neu app (pre ++ a :: post)) =
        some (.error e))
    ∧ (∀ (f : Nat) (env : Ulc.Env) (app : Ulc.NameRef) (args : List Ulc.Term)
        (vs : List Ulc.Val),
      Ulc.evalList (fun t => Ulc.interpret f env t) args = some (.ok vs) →
      Ulc.interpret (f + 1) env (.Neu app args) =
        match Ulc.Env.lookup env app with
        | .error e => some (.error e)
        | .ok v => Ulc.apply f v vs)
    ∧ (∀ (f : Nat) (env : Ulc.Env) (app : Ulc.NameRef),
      Ulc.interpret (f + 1) env (.Neu app []) =
        match Ulc.Env.lookup env app with
        | .error e => some (.error e)
        | .ok v => some (.ok v)) := by
  refine ⟨?_, ?_, ?_⟩
  · intro f env app pre a post vs e hpre ha
    rw [Ulc.interpret, Ulc.evalList_append_error _ pre a post vs e hpre ha]
  · intro f env app args vs h
    rw [Ulc.interpret, h]
    rfl
  · intro f env app
    rw [Ulc.interpret]
    cases h : Ulc.Env.lookup env app with
    | error e => simp [Ulc.evalList, h]
    | ok v => simp [Ulc.evalList, h, Ulc.applyAux]

/-- C3 witness: with an unbound name as the single argument (and an equally
unbound applicant), evaluation returns the argument's failure without
resolving the applicant. -/
theorem claim_C3_witness :
    Ulc.interpret 2 [] (.Neu ⟨"f", 0⟩ [.Neu ⟨"y", 0⟩ []]) =
      some (.error (Ulc.msgUnboundReference 0 "y")) :=
  claim_C3.1 1 [] ⟨"f", 0⟩ [] (.Neu ⟨"y", 0⟩ []) [] []
    (Ulc.msgUnboundReference 0 "y") rfl rfl

/-- C4: `lookup` fails with the `UnboundReference` message exactly on an
index past the end of the environment, with the `NameMismatch` message when
the entry exists but carries a different label, and returns the stored value
otherwise; including the two concrete scenarios of the spec. -/
theorem claim_C4 :
    (∀ (env : Ulc.Env) (x : Ulc.NameRef), env.length ≤ x.index →
      Ulc.Env.lookup env x =
        .error (Ulc.msgUnboundReference x.index x.label))
    ∧ (∀ (env : Ulc.Env) (x : Ulc.NameRef) (y : Ulc.NameIntro) (v : Ulc.Val),
      env[x.index]? = some (y, v) → y.label ≠ x.label →
      Ulc.Env.lookup env x =
        .error (Ulc.msgNameMismatch x.index x.label y.label))
    ∧ (∀ (env : Ulc.Env) (x : Ulc.NameRef) (y : Ulc.NameIntro) (v : Ulc.Val),
      env[x.index]? = some (y, v) → y.label = x.label →
      Ulc.Env.lookup env x = .ok v)
    ∧ Ulc.Env.lookup [(⟨"a"⟩, Ulc.sampleVal), (⟨"b"⟩, Ulc.sampleVal)]
        ⟨"x", 5⟩ = .error (Ulc.msgUnboundReference 5 "x")
    ∧ Ulc.Env.lookup [(⟨"x"⟩, Ulc.sampleVal)] ⟨"y", 0⟩ =
        .error (Ulc.msgNameMismatch 0 "y" "x") := by
  refine ⟨?_, ?_, ?_, rfl, rfl⟩
  · intro env x h
    rw [Ulc.Env.lookup, List.getElem?_eq_none h]
  · intro env x y v h hne
    rw [Ulc.Env.lookup, h]
    simp [hne]
  · intro env x y v h he
    rw [Ulc.Env.lookup, h]
    simp [he]

/-- C4 witness: the out-of-range case applied to the empty environment. -/
theorem claim_C4_witness :
    Ulc.Env.lookup [] ⟨"x", 5⟩ =
      .error (Ulc.msgUnboundReference 5 "x") :=
  claim_C4.1 [] ⟨"x", 5⟩ (Nat.zero_le 5)

/-- C7: applying a closure to all arguments in a single call agrees with
applying them one at a time, both on the resulting value and on failures. -/
theorem claim_C7 (fuel : Nat) (v : Ulc.Val) (args : List Ulc.Val) :
    Ulc.apply fuel v args = Ulc.applyOneAtATime fuel v args := by
  induction args generalizing v with
  | nil => cases v with | Lam intro body closure => rfl
  | cons a rest ih =>
    have hr :
        (match (some (.ok v) : Option (Except String Ulc.Val)) with
          | some (.ok w) => Ulc.apply fuel w [a]
          | other => other) = Ulc.apply fuel v [a] := rfl
    rw [Ulc.applyOneAtATime, List.foldl_cons, hr, Ulc.apply_cons]
    cases h : Ulc.apply fuel v [a] with
    | none => rw [Ulc.foldl_applyStep_none fuel rest]
    | some r =>
      cases r with
      | error e => rw [Ulc.foldl_applyStep_error fuel rest e]
      | ok w => exact ih w

/-- C9: `extend` prepends the new binding and never fails; the old
environment is untouched, remaining the tail of the result, with every old
binding still found (by lookup or position) shifted one place down; and since
the embedding is pure, any operation already holding the old environment is
unaffected. -/
theorem claim_C9 (env : Ulc.Env) (intro : Ulc.NameIntro) (v : Ulc.Val) :
    Ulc.Env.extend env intro v = (intro, v) :: env
    ∧ (∀ k, (Ulc.Env.extend env intro v)[k + 1]? = env[k]?)
    ∧ (∀ (l : String) (k : Nat) (w : Ulc.Val),
      Ulc.Env.lookup env ⟨l, k⟩ = .ok w →
      Ulc.Env.lookup (Ulc.Env.extend env intro v) ⟨l, k + 1⟩ = .ok w)
    ∧ List.drop 1 (Ulc.Env.extend env intro v) = env := by
  refine ⟨rfl, fun k => ?_, fun l k w h => ?_, rfl⟩
  · simp [Ulc.Env.extend]
  · rw [Ulc.Env.lookup] at h ⊢
    simp only [Ulc.Env.extend, List.getElem?_cons_succ]
    cases hk : env[k]? with
    | none =>
      rw [hk] at h
      simp at h
    | some p =>
      cases p with
      | mk y w2 =>
        rw [hk] at h
        by_cases hy : y.label = l
        · simpa [hy] using h
        · simp [hy] at h

/-- C9 witness: a binding stored in the old environment is still found, one
position down, after an extension. -/
theorem claim_C9_witness :
    Ulc.Env.lookup
      (Ulc.Env.extend [(⟨"a"⟩, Ulc.sampleVal)] ⟨"b"⟩ Ulc.sampleVal)
      ⟨"a", 1⟩ = .ok Ulc.sampleVal :=
  (claim_C9 [(⟨"a"⟩, Ulc.sampleVal)] ⟨"b"⟩ Ulc.sampleVal).2.2.1 "a" 0
    Ulc.sampleVal rfl

namespace Ulc

theorem except_bind_ok {α β : Type} (a : α) (f : α → Except String β) :
    (Except.ok a >>= f) = f a := rfl

theorem except_bind_error {α β : Type} (e : String)
    (f : α → Except String β) :
    ((Except.error e : Except String α) >>= f) =
      (Except.error e : Except String β) := rfl

end Ulc

theorem positionOf_sound :
    ∀ (ctx : List String) (name : String) (i : Nat),
      Ulc.positionOf name ctx = some i → ctx[i]? = some name
  | [], name, i, h => by simp [Ulc.positionOf] at h
  | s :: rest, name, i, h => by
    by_cases hs : name = s
    · rw [Ulc.positionOf, if_pos hs] at h
      cases h
      simp [hs]
    · rw [Ulc.positionOf, if_neg hs] at h
      cases hr : Ulc.positionOf name rest with
      | none => rw [hr] at h; exact absurd h (by simp)
      | some i2 =>
        rw [hr] at h
        simp at h
        subst h
        simpa using positionOf_sound rest name i2 hr

theorem positionOf_complete :
    ∀ (ctx : List String) (name : String) (i : Nat), ctx[i]? = some name →
      (∀ j, j < i → ctx[j]? ≠ some name) → Ulc.positionOf name ctx = some i
  | [], name, i, h, _ => by simp at h
  | s :: rest, name, 0, h, _ => by
    simp at h
    simp [Ulc.positionOf, h]
  | s :: rest, name, i + 1, h, hmin => by
    have h0 : ¬name = s := by
      intro he
      exact hmin 0 (Nat.succ_pos i) (by simp [he])
    rw [List.getElem?_cons_succ] at h
    have hr : Ulc.positionOf name rest = some i :=
      positionOf_complete rest name i h
        (fun j hj => by
          have hj1 := hmin (j + 1) (Nat.succ_lt_succ hj)
          simpa using hj1)
    simp [Ulc.positionOf, h0, hr]

theorem positionOf_none_of_not_mem :
    ∀ (ctx : List String) (name : String), (∀ s ∈ ctx, s ≠ name) →
      Ulc.positionOf name ctx = none
  | [], name, _ => rfl
  | s :: rest, name, h => by
    have hs : ¬name = s := fun he => h s (by simp) he.symm
    simp [Ulc.positionOf, hs,
      positionOf_none_of_not_mem rest name (fun u hu => h u (by simp [hu]))]

/-- C6: a use occurrence with no explicit index resolves to the first
(nearest-binder-first) context position carrying the label, and fails with
the `UnboundName` message when no context entry equals the label; including
the two concrete scenarios of the spec. -/
theorem claim_C6 :
    (∀ (ctx : List String) (name : String) (args : List Ulc.TermBuilder)
        (ts : List Ulc.Term) (i : Nat),
      ctx[i]? = some name → (∀ j, j < i → ctx[j]? ≠ some name) →
      Ulc.from_term_builder_args ctx args = .ok ts →
      Ulc.from_term_builder_to_term ctx (.Neu (name, none) args) =
        .ok (.Neu ⟨name, i⟩ ts))
    ∧ (∀ (ctx : List String) (name : String) (args : List Ulc.TermBuilder),
      (∀ s ∈ ctx, s ≠ name) →
      Ulc.from_term_builder_to_term ctx (.Neu (name, none) args) =
        .error (Ulc.msgUnboundName name ctx))
    ∧ Ulc.from_term_builder_to_term [] (.Lam "x" (.Neu ("x", none) [])) =
        .ok (.Lam ⟨"x"⟩ (.Neu ⟨"x", 0⟩ []))
    ∧ Ulc.from_term_builder_to_term [] (.Neu ("y", none) []) =
        .error (Ulc.msgUnboundName "y" []) := by
  refine ⟨?_, ?_, rfl, rfl⟩
  · intro ctx name args ts i hget hmin hargs
    simp [Ulc.from_term_builder_to_term,
      positionOf_complete ctx name i hget hmin, hargs, Ulc.except_bind_ok]
  · intro ctx name args h
    simp [Ulc.from_term_builder_to_term,
      positionOf_none_of_not_mem ctx name h, Ulc.except_bind_error]

/-- C6 witness: resolving the bare occurrence of `x` under the context
`["x"]` produces index 0. -/
theorem claim_C6_witness :
    Ulc.from_term_builder_to_term ["x"] (.Neu ("x", none) []) =
      .ok (.Neu ⟨"x", 0⟩ []) :=
  claim_C6.1 ["x"] "x" [] [] 0 rfl
    (fun j hj => absurd hj (Nat.not_lt_zero j)) rfl

mutual

theorem resolver_error_shape :
    ∀ (ctx : List String) (tb : Ulc.TermBuilder) (e : String),
      Ulc.from_term_builder_to_term ctx tb = .error e → Ulc.errorShape e
  | ctx, .Lam name body, e => by
    intro h
    cases hb : Ulc.from_term_builder_to_term (name :: ctx) body with
    | ok b =>
      simp [Ulc.from_term_builder_to_term, hb, Ulc.except_bind_ok] at h
    | error e2 =>
      simp [Ulc.from_term_builder_to_term, hb, Ulc.except_bind_error] at h
      subst h
      exact resolver_error_shape (name :: ctx) body e2 hb
  | ctx, .Neu (name, idx) args, e => by
    intro h
    cases idx with
    | some i =>
      cases hg : ctx[i]? with
      | none =>
        simp [Ulc.from_term_builder_to_term, hg, Ulc.except_bind_error] at h
        exact Or.inl ⟨name, i, ctx, h.symm⟩
      | some actual =>
        by_cases hn : name = actual
        · cases hargs : Ulc.from_term_builder_args ctx args with
          | ok ts =>
            simp [Ulc.from_term_builder_to_term, hg, hn, hargs,
              Ulc.except_bind_ok] at h
          | error e2 =>
            simp [Ulc.from_term_builder_to_term, hg, hn, hargs,
              Ulc.except_bind_ok, Ulc.except_bind_error] at h
            subst h
            exact resolver_args_error_shape ctx args e2 hargs
        · simp [Ulc.from_term_builder_to_term, hg, hn,
            Ulc.except_bind_error] at h
          exact Or.inl ⟨name, i, ctx, h.symm⟩
    | none =>
      cases hp : Ulc.positionOf name ctx with
      | none =>
        simp [Ulc.from_term_builder_to_term, hp, Ulc.except_bind_error] at h
        exact Or.inr ⟨name, ctx, h.symm⟩
      | some i =>
        cases hargs : Ulc.from_term_builder_args ctx args with
        | ok ts =>
          simp [Ulc.from_term_builder_to_term, hp, hargs,
            Ulc.except_bind_ok] at h
        | error e2 =>
          simp [Ulc.from_term_builder_to_term, hp, hargs,
            Ulc.except_bind_ok, Ulc.except_bind_error] at h
          subst h
          exact resolver_args_error_shape ctx args e2 hargs
  | ctx, .Def name binding body, e => by
    intro h
    cases hb : Ulc.from_term_builder_to_term ctx binding with
    | error e2 =>
      simp [Ulc.from_term_builder_to_term, hb, Ulc.except_bind_error] at h
      subst h
      exact resolver_error_shape ctx binding e2 hb
    | ok b =>
      cases hc : Ulc.from_term_builder_to_term (name :: ctx) body with
      | error e2 =>
        simp [Ulc.from_term_builder_to_term, hb, hc, Ulc.except_bind_ok,
          Ulc.except_bind_error] at h
        subst h
        exact resolver_error_shape (name :: ctx) body e2 hc
      | ok c =>
        simp [Ulc.from_term_builder_to_term, hb, hc,
          Ulc.except_bind_ok] at h

theorem resolver_args_error_shape :
    ∀ (ctx : List String) (args : List Ulc.TermBuilder) (e : String),
      Ulc.from_term_builder_args ctx args = .error e → Ulc.errorShape e
  | ctx, [], e => by intro h; simp [Ulc.from_term_builder_args] at h
  | ctx, a :: rest, e => by
    intro h
    cases ha : Ulc.from_term_builder_to_term ctx a with
    | error e2 =>
      simp [Ulc.from_term_builder_args, ha, Ulc.except_bind_error] at h
      subst h
      exact resolver_error_shape ctx a e2 ha
    | ok t =>
      cases hrest : Ulc.from_term_builder_args ctx rest with
      | error e2 =>
        simp [Ulc.from_term_builder_args, ha, hrest, Ulc.except_bind_ok,
          Ulc.except_bind_error] at h
        subst h
        exact resolver_args_error_shape ctx rest e2 hrest
      | ok ts =>
        simp [Ulc.from_term_builder_args, ha, hrest,
          Ulc.except_bind_ok] at h

end

/-- C5: amended.  The resolution function `from_term_builder_to_term` either
returns a resolved `Term` or returns an error message of one of the two
resolution-failure shapes, each of which reports the offending label, the
attempted index (when one was supplied), and the full context; the public
`From<TermBuilder> for Term` conversion unwraps this result, returning the
term on success and panicking (modelled as `none`) instead of delivering the
error to the caller. -/
theorem claim_C5_amended :
    (∀ (ctx : List String) (tb : Ulc.TermBuilder),
      (∃ t, Ulc.from_term_builder_to_term ctx tb = .ok t)
      ∨ (∃ e, Ulc.from_term_builder_to_term ctx tb = .error e ∧
          Ulc.errorShape e))
    ∧ (∀ (tb : Ulc.TermBuilder) (t : Ulc.Term),
      Ulc.termFromBuilder tb = some t ↔
        Ulc.from_term_builder_to_term [] tb = .ok t) := by
  constructor
  · intro ctx tb
    cases h : Ulc.from_term_builder_to_term ctx tb with
    | ok t => exact Or.inl ⟨t, rfl⟩
    | error e => exact Or.inr ⟨e, rfl, resolver_error_shape ctx tb e h⟩
  · intro tb t
    rw [Ulc.termFromBuilder]
    cases h : Ulc.from_term_builder_to_term [] tb with
    | ok t2 => simp
    | error e => simp

/-- C5 counterexample: on the unresolvable surface term `var "y"` the public
conversion from `TermBuilder` to `Term` delivers nothing to the caller — the
`.unwrap()` panic, modelled as `none` — rather than returning a `Term` or
delivering the resolution error. -/
theorem claim_C5_counterexample :
    Ulc.termFromBuilder (.Neu ("y", none) []) = none := rfl

mutual

theorem resolver_sound :
    ∀ (ctx : List String) (tb : Ulc.TermBuilder) (t : Ulc.Term),
      Ulc.from_term_builder_to_term ctx tb = .ok t → Ulc.TermWS ctx t
  | ctx, .Lam name body, t => by
    intro h
    cases hb : Ulc.from_term_builder_to_term (name :: ctx) body with
    | error e =>
      simp [Ulc.from_term_builder_to_term, hb, Ulc.except_bind_error] at h
    | ok b =>
      simp [Ulc.from_term_builder_to_term, hb, Ulc.except_bind_ok] at h
      subst h
      exact Ulc.TermWS.lam (resolver_sound (name :: ctx) body b hb)
  | ctx, .Neu (name, idx) args, t => by
    intro h
    cases idx with
    | some i =>
      cases hg : ctx[i]? with
      | none =>
        simp [Ulc.from_term_builder_to_term, hg, Ulc.except_bind_error] at h
      | some actual =>
        by_cases hn : name = actual
        · cases hargs : Ulc.from_term_builder_args ctx args with
          | error e =>
            simp [Ulc.from_term_builder_to_term, hg, hn, hargs,
              Ulc.except_bind_ok, Ulc.except_bind_error] at h
          | ok ts =>
            simp [Ulc.from_term_builder_to_term, hg, hn, hargs,
              Ulc.except_bind_ok] at h
            subst h
            refine Ulc.TermWS.neu ?_ (resolver_args_sound ctx args ts hargs)
            simp [hg]
        · simp [Ulc.from_term_builder_to_term, hg, hn,
            Ulc.except_bind_error] at h
    | none =>
      cases hp : Ulc.positionOf name ctx with
      | none =>
        simp [Ulc.from_term_builder_to_term, hp, Ulc.except_bind_error] at h
      | some i =>
        cases hargs : Ulc.from_term_builder_args ctx args with
        | error e =>
          simp [Ulc.from_term_builder_to_term, hp, hargs,
            Ulc.except_bind_ok, Ulc.except_bind_error] at h
        | ok ts =>
          simp [Ulc.from_term_builder_to_term, hp, hargs,
            Ulc.except_bind_ok] at h
          subst h
          exact Ulc.TermWS.neu (positionOf_sound ctx name i hp)
            (resolver_args_sound ctx args ts hargs)
  | ctx, .Def name binding body, t => by
    intro h
    cases hb : Ulc.from_term_builder_to_term ctx binding with
    | error e =>
      simp [Ulc.from_term_builder_to_term, hb, Ulc.except_bind_error] at h
    | ok b =>
      cases hc : Ulc.from_term_builder_to_term (name :: ctx) body with
      | error e =>
        simp [Ulc.from_term_builder_to_term, hb, hc, Ulc.except_bind_ok,
          Ulc.except_bind_error] at h
      | ok c =>
        simp [Ulc.from_term_builder_to_term, hb, hc,
          Ulc.except_bind_ok] at h
        subst h
        exact Ulc.TermWS.defn (resolver_sound ctx binding b hb)
          (resolver_sound (name :: ctx) body c hc)

theorem resolver_args_sound :
    ∀ (ctx : List String) (args : List Ulc.TermBuilder)
      (ts : List Ulc.Term),
      Ulc.from_term_builder_args ctx args = .ok ts →
      ∀ a ∈ ts, Ulc.TermWS ctx a
  | ctx, [], ts => by
    intro h
    simp [Ulc.from_term_builder_args] at h
    subst h
    intro a ha
    exact absurd ha (List.not_mem_nil a)
  | ctx, a :: rest, ts => by
    intro h
    cases ha : Ulc.from_term_builder_to_term ctx a with
    | error e =>
      simp [Ulc.from_term_builder_args, ha, Ulc.except_bind_error] at h
    | ok t =>
      cases hrest : Ulc.from_term_builder_args ctx rest with
      | error e =>
        simp [Ulc.from_term_builder_args, ha, hrest, Ulc.except_bind_ok,
          Ulc.except_bind_error] at h
      | ok ts2 =>
        simp [Ulc.from_term_builder_args, ha, hrest,
          Ulc.except_bind_ok] at h
        subst h
        intro u hu
        cases hu with
        | head => exact resolver_sound ctx a t ha
        | tail _ hu2 => exact resolver_args_sound ctx rest ts2 hrest u hu2

end

theorem withIndicesArgs_resolves (ctx : List String) :
    ∀ (args : List Ulc.Term),
      (∀ a ∈ args,
        Ulc.from_term_builder_to_term ctx (Ulc.withIndices a) = .ok a) →
      Ulc.from_term_builder_args ctx (Ulc.withIndicesArgs args) = .ok args
  | [], _ => rfl
  | a :: rest, h => by
    rw [Ulc.withIndicesArgs, Ulc.from_term_builder_args,
      h a (by simp),
      withIndicesArgs_resolves ctx rest (fun u hu => h u (by simp [hu]))]
    rfl

theorem withIndices_resolves (ctx : List String) (t : Ulc.Term)
    (hws : Ulc.TermWS ctx t) :
    Ulc.from_term_builder_to_term ctx (Ulc.withIndices t) = .ok t := by
  induction hws with
  | lam hbody ih =>
    rw [Ulc.withIndices, Ulc.from_term_builder_to_term, ih]
    rfl
  | neu hget hargs ih =>
    rename_i ctx2 app args
    cases app with
    | mk label index =>
      have hget2 : ctx2[index]? = some label := hget
      have hargs2 := withIndicesArgs_resolves ctx2 args ih
      simp [Ulc.withIndices, Ulc.from_term_builder_to_term, hget2, hargs2,
        Ulc.except_bind_ok]
  | defn hbinding hbody ih1 ih2 =>
    rw [Ulc.withIndices, Ulc.from_term_builder_to_term, ih1,
      Ulc.except_bind_ok, ih2]
    rfl

/-- C8: a surface term with no explicit indices that resolves to a core term
`t` still resolves to exactly `t` after the resolved de Bruijn index is
inserted into each use occurrence. -/
theorem claim_C8 (ctx : List String) (tb : Ulc.TermBuilder) (t : Ulc.Term)
    (hnoidx : Ulc.noExplicitIndices tb = true)
    (hres : Ulc.from_term_builder_to_term ctx tb = .ok t) :
    Ulc.from_term_builder_to_term ctx (Ulc.withIndices t) = .ok t :=
  withIndices_resolves ctx t (resolver_sound ctx tb t hres)

/-- C8 witness: the round trip on `lam("x", var("x"))`. -/
theorem claim_C8_witness :
    Ulc.from_term_builder_to_term []
      (Ulc.withIndices (.Lam ⟨"x"⟩ (.Neu ⟨"x", 0⟩ []))) =
      .ok (.Lam ⟨"x"⟩ (.Neu ⟨"x", 0⟩ [])) :=
  claim_C8 [] (.Lam "x" (.Neu ("x", none) [])) (.Lam ⟨"x"⟩ (.Neu ⟨"x", 0⟩ []))
    rfl rfl

namespace Ulc

theorem envWS_get {env : Env} (h : EnvWS env) {i : Nat} {y : NameIntro}
    {v : Val} (hg : env[i]? = some (y, v)) : ValWS v :=
  h (y, v) (List.getElem?_mem hg)

theorem envLabels_get {env : Env} {i : Nat} {label : String}
    (hl : (envLabels env)[i]? = some label) :
    ∃ y v, env[i]? = some (y, v) ∧ y.label = label := by
  rw [envLabels, List.getElem?_map] at hl
  cases hg : env[i]? with
  | none => rw [hg] at hl; exact absurd hl (by simp)
  | some p =>
    rw [hg] at hl
    simp at hl
    cases p with
    | mk y v => exact ⟨y, v, rfl, hl⟩

theorem lookup_ws {env : Env} {app : NameRef}
    (henv : EnvWS env)
    (hget : (envLabels env)[app.index]? = some app.label) :
    ∃ v, Env.lookup env app = .ok v ∧ ValWS v := by
  obtain ⟨y, v, hg, hy⟩ := envLabels_get hget
  refine ⟨v, ?_, envWS_get henv hg⟩
  simp [Env.lookup, hg, hy]

theorem interpret_ws (fuel : Nat) :
    (∀ (env : Env) (t : Term), EnvWS env → TermWS (envLabels env) t →
      goodRes (interpret fuel env t))
    ∧ (∀ (env : Env) (args : List Term), EnvWS env →
      (∀ a ∈ args, TermWS (envLabels env) a) →
      goodResList (evalList (fun a => interpret fuel env a) args))
    ∧ (∀ (v : Val) (vs : List Val), ValWS v → (∀ u ∈ vs, ValWS u) →
      goodRes (applyAux (fun e t => interpret fuel e t) v vs)) := by
  induction fuel with
  | zero =>
    refine ⟨fun env t _ _ => trivial, ?_, ?_⟩
    · intro env args _ _
      cases args with
      | nil => exact fun u hu => absurd hu (List.not_mem_nil u)
      | cons a rest => exact trivial
    · intro v vs hv hvs
      cases vs with
      | nil => cases hv with | lam hclos hbody => exact ValWS.lam hclos hbody
      | cons a rest => cases hv with | lam hclos hbody => exact trivial
  | succ f ih =>
    have h1 : ∀ (env : Env) (t : Term), EnvWS env →
        TermWS (envLabels env) t → goodRes (interpret (f + 1) env t) := by
      intro env t henv hws
      cases hws with
      | lam hbody =>
        exact ValWS.lam henv hbody
      | neu hget hargs =>
        rename_i app args
        rw [interpret]
        cases hev : evalList (fun a => interpret f env a) args with
        | none => exact trivial
        | some r =>
          have hlist := ih.2.1 env args henv hargs
          rw [hev] at hlist
          cases r with
          | error e => exact absurd hlist (by simp [goodResList])
          | ok vs =>
            obtain ⟨v, hlook, hv⟩ := lookup_ws henv hget
            rw [hlook]
            exact ih.2.2 v vs hv hlist
      | defn hbinding hbody =>
        rename_i intro binding body
        rw [interpret]
        cases hb : interpret f env binding with
        | none => exact trivial
        | some r =>
          have hgb := ih.1 env binding henv hbinding
          rw [hb] at hgb
          cases r with
          | error e => exact absurd hgb (by simp [goodRes])
          | ok v =>
            refine ih.1 (Env.extend env intro v) body ?_ hbody
            intro p hp
            cases hp with
            | head => exact hgb
            | tail _ hp2 => exact henv p hp2
    have h2 : ∀ (env : Env) (args : List Term), EnvWS env →
        (∀ a ∈ args, TermWS (envLabels env) a) →
        goodResList (evalList (fun a => interpret (f + 1) env a) args) := by
      intro env args henv hargs
      induction args with
      | nil => exact fun u hu => absurd hu (List.not_mem_nil u)
      | cons a rest ihargs =>
        rw [evalList]
        cases ha : interpret (f + 1) env a with
        | none => exact trivial
        | some r =>
          have hga := h1 env a henv (hargs a (by simp))
          rw [ha] at hga
          cases r with
          | error e => exact absurd hga (by simp [goodRes])
          | ok v =>
            cases hrest : evalList (fun a => interpret (f + 1) env a) rest with
            | none => exact trivial
            | some r2 =>
              have hgrest := ihargs (fun u hu => hargs u (by simp [hu]))
              rw [hrest] at hgrest
              cases r2 with
              | error e => exact absurd hgrest (by simp [goodResList])
              | ok vs =>
                intro u hu
                cases hu with
                | head => exact hga
                | tail _ hu2 => exact hgrest u hu2
    have h3 : ∀ (v : Val) (vs : List Val), ValWS v →
        (∀ u ∈ vs, ValWS u) →
        goodRes (applyAux (fun e t => interpret (f + 1) e t) v vs) := by
      intro v vs
      induction vs generalizing v with
      | nil =>
        intro hv _
        cases hv with
        | lam hclos hbody => exact ValWS.lam hclos hbody
      | cons a rest ihvs =>
        intro hv hvs
        cases hv with
        | lam hclos hbody =>
          rename_i intro body closure
          rw [applyAux]
          have henv2 : EnvWS (Env.extend closure intro a) := by
            intro p hp
            cases hp with
            | head => exact hvs a (by simp)
            | tail _ hp2 => exact hclos p hp2
          have hg := h1 (Env.extend closure intro a) body henv2 hbody
          cases hbv : interpret (f + 1) (Env.extend closure intro a) body with
          | none => exact trivial
          | some r =>
            rw [hbv] at hg
            cases r with
            | error e => exact absurd hg (by simp [goodRes])
            | ok v2 => exact ihvs v2 hg (fun u hu => hvs u (by simp [hu]))
    exact ⟨h1, h2, h3⟩

end Ulc

/-- C2: a core term produced by the name resolver under the empty context
never fails at runtime when evaluated in the empty environment — every
`lookup` reached finds a binding whose label matches, so neither the
`UnboundReference` nor the `NameMismatch` failure (the only failures the
evaluator has) can occur, at any recursion-depth budget. -/
theorem claim_C2 (tb : Ulc.TermBuilder) (t : Ulc.Term)
    (h : Ulc.from_term_builder_to_term [] tb = .ok t) (fuel : Nat) :
    Ulc.isError (Ulc.interpret fuel [] t) = false := by
  have hws : Ulc.TermWS [] t := resolver_sound [] tb t h
  have hgood : Ulc.goodRes (Ulc.interpret fuel [] t) :=
    (Ulc.interpret_ws fuel).1 [] t
      (fun p hp => absurd hp (List.not_mem_nil p)) hws
  cases hres : Ulc.interpret fuel [] t with
  | none => rfl
  | some r =>
    rw [hres] at hgood
    cases r with
    | error e => exact absurd hgood (by simp [Ulc.goodRes])
    | ok v => rfl

/-- C2 witness: evaluating the resolution of `lam("x", var("x"))` in the
empty environment does not fail. -/
theorem claim_C2_witness :
    Ulc.isError (Ulc.interpret 3 [] (.Lam ⟨"x"⟩ (.Neu ⟨"x", 0⟩ []))) =
      false :=
  claim_C2 (.Lam "x" (.Neu ("x", none) [])) (.Lam ⟨"x"⟩ (.Neu ⟨"x", 0⟩ []))
    rfl 3

namespace FiLang

theorem getElem?_toUlcEnv :
    ∀ (env : Env) (i : Nat),
      (toUlcEnv env)[i]? =
        Option.map (fun p => (p.1, toUlcVal p.2)) env[i]?
  | [], i => by simp [toUlcEnv]
  | (n, v) :: rest, 0 => by simp [toUlcEnv]
  | (n, v) :: rest, i + 1 => by
    simp [toUlcEnv, getElem?_toUlcEnv rest i]

theorem lookup_toUlc (env : Env) (x : Ulc.NameRef) :
    Ulc.Env.lookup (toUlcEnv env) x =
      match Env.lookup env x with
      | .ok v => .ok (toUlcVal v)
      | .error e => .error e := by
  rw [Ulc.Env.lookup, Env.lookup, getElem?_toUlcEnv]
  cases hg : env[x.index]? with
  | none => rfl
  | some p =>
    cases p with
    | mk y v =>
      by_cases hy : y.label = x.label
      · simp [hy]
      · simp [hy]

end FiLang

theorem interpret_fi_ulc (fuel : Nat) :
    (∀ (env : FiLang.Env) (t : FiLang.Term),
      Ulc.interpret fuel (FiLang.toUlcEnv env) (FiLang.toUlcTerm t) =
        FiLang.toUlcRes (FiLang.interpret fuel env t))
    ∧ (∀ (env : FiLang.Env) (args : List FiLang.Term),
      Ulc.evalList (fun a => Ulc.interpret fuel (FiLang.toUlcEnv env) a)
          (FiLang.toUlcArgs args) =
        FiLang.toUlcResList
          (Ulc.evalList (fun a => FiLang.interpret fuel env a) args))
    ∧ (∀ (v : FiLang.Val) (vs : List FiLang.Val),
      Ulc.applyAux (fun e t => Ulc.interpret fuel e t) (FiLang.toUlcVal v)
          (vs.map FiLang.toUlcVal) =
        FiLang.toUlcRes
          (FiLang.applyAux (fun e t => FiLang.interpret fuel e t) v vs)) := by
  induction fuel with
  | zero =>
    refine ⟨fun env t => rfl, ?_, ?_⟩
    · intro env args
      cases args with
      | nil => rfl
      | cons a rest => rfl
    · intro v vs
      cases v with
      | Lam intro body closure =>
        cases vs with
        | nil => rfl
        | cons a rest => rfl
  | succ f ih =>
    have h1 : ∀ (env : FiLang.Env) (t : FiLang.Term),
        Ulc.interpret (f + 1) (FiLang.toUlcEnv env) (FiLang.toUlcTerm t) =
          FiLang.toUlcRes (FiLang.interpret (f + 1) env t) := by
      intro env t
      cases t with
      | Lam intro body => rfl
      | Neu app args =>
        rw [show FiLang.toUlcTerm (.Neu app args) =
          .Neu app (FiLang.toUlcArgs args) from rfl]
        rw [Ulc.interpret, FiLang.interpret, ih.2.1 env args]
        cases hev : Ulc.evalList (fun a => FiLang.interpret f env a) args with
        | none => rfl
        | some r =>
          cases r with
          | error e => rfl
          | ok vs =>
            rw [show FiLang.toUlcResList (some (.ok vs)) =
              some (.ok (vs.map FiLang.toUlcVal)) from rfl]
            rw [FiLang.lookup_toUlc]
            cases hl : FiLang.Env.lookup env app with
            | error e => rfl
            | ok v => exact ih.2.2 v vs
      | Let intro binding body =>
        rw [show FiLang.toUlcTerm (.Let intro binding body) =
          .Def intro (FiLang.toUlcTerm binding) (FiLang.toUlcTerm body)
          from rfl]
        rw [Ulc.interpret, FiLang.interpret, ih.1 env binding]
        cases hb : FiLang.interpret f env binding with
        | none => rfl
        | some r =>
          cases r with
          | error e => rfl
          | ok v =>
            rw [show FiLang.toUlcRes (some (.ok v)) =
              some (.ok (FiLang.toUlcVal v)) from rfl]
            exact ih.1 ((intro, v) :: env) body
    have h2 : ∀ (env : FiLang.Env) (args : List FiLang.Term),
        Ulc.evalList (fun a => Ulc.interpret (f + 1) (FiLang.toUlcEnv env) a)
            (FiLang.toUlcArgs args) =
          FiLang.toUlcResList
            (Ulc.evalList (fun a => FiLang.interpret (f + 1) env a) args) := by
      intro env args
      induction args with
      | nil => rfl
      | cons a rest ihargs =>
        rw [show FiLang.toUlcArgs (a :: rest) =
          FiLang.toUlcTerm a :: FiLang.toUlcArgs rest from rfl]
        rw [Ulc.evalList, Ulc.evalList, h1 env a]
        cases ha : FiLang.interpret (f + 1) env a with
        | none => rfl
        | some r =>
          cases r with
          | error e => rfl
          | ok v =>
            rw [show FiLang.toUlcRes (some (.ok v)) =
              some (.ok (FiLang.toUlcVal v)) from rfl]
            rw [ihargs]
            cases hrest :
                Ulc.evalList (fun a => FiLang.interpret (f + 1) env a)
                  rest with
            | none => rfl
            | some r2 =>
              cases r2 with
              | error e => rfl
              | ok vs => rfl
    have h3 : ∀ (v : FiLang.Val) (vs : List FiLang.Val),
        Ulc.applyAux (fun e t => Ulc.interpret (f + 1) e t)
            (FiLang.toUlcVal v) (vs.map FiLang.toUlcVal) =
          FiLang.toUlcRes
            (FiLang.applyAux (fun e t => FiLang.interpret (f + 1) e t)
              v vs) := by
      intro v vs
      induction vs generalizing v with
      | nil => cases v with | Lam intro body closure => rfl
      | cons a rest ihvs =>
        cases v with
        | Lam intro body closure =>
          rw [show FiLang.toUlcVal (.Lam intro body closure) =
            .Lam intro (FiLang.toUlcTerm body) (FiLang.toUlcEnv closure)
            from rfl]
          rw [List.map_cons, Ulc.applyAux, FiLang.applyAux]
          have hext : Ulc.Env.extend (FiLang.toUlcEnv closure) intro
              (FiLang.toUlcVal a) =
              FiLang.toUlcEnv (FiLang.Env.extend closure intro a) := rfl
          rw [hext, h1 (FiLang.Env.extend closure intro a) body]
          cases hb : FiLang.interpret (f + 1)
              (FiLang.Env.extend closure intro a) body with
          | none => rfl
          | some r =>
            cases r with
            | error e => rfl
            | ok v2 =>
              rw [show FiLang.toUlcRes (some (.ok v2)) =
                some (.ok (FiLang.toUlcVal v2)) from rfl]
              exact ihvs v2
    exact ⟨h1, h2, h3⟩

/-- C10: the `fi_lang` evaluator and the `ulc` evaluator agree along the
structure-preserving bijection sending `Let` to `Def` (keeping all labels,
indices and argument order): at every recursion-depth budget, evaluating a
`fi_lang` term yields exactly the image of the `ulc` result — equal values up
to the bijection on success, and equal error messages on failure. -/
theorem claim_C10 (fuel : Nat) (env : FiLang.Env) (t : FiLang.Term) :
    Ulc.interpret fuel (FiLang.toUlcEnv env) (FiLang.toUlcTerm t) =
      FiLang.toUlcRes (FiLang.interpret fuel env t) :=
  (interpret_fi_ulc fuel).1 env t

/-!
Validation against the test suites embedded in the repository: the embedding
reproduces, at sufficient fuel, the exact values the Rust tests assert.
-/

section RepoTests
open Ulc

-- `ulc::interpretation::tests::test2`, first assertion (Scenario A):
-- `λx x#0` in the empty environment gives the closure `λ[]x x#0`.
example : interpret 2 [] (.Lam ⟨"x"⟩ (.Neu ⟨"x", 0⟩ [])) =
    some (.ok (.Lam ⟨"x"⟩ (.Neu ⟨"x", 0⟩ []) [])) := rfl

-- `ulc::interpretation::tests::test2`, second assertion (Scenario B):
-- `(def f = λx λy x#1 in (f λz z#0))` gives
-- `λ[x = λ[f = λ[]x λy x#1]z z#0]y x#1`.
example : interpret 10 []
    (.Def ⟨"f"⟩
      (.Lam ⟨"x"⟩ (.Lam ⟨"y"⟩ (.Neu ⟨"x", 1⟩ [])))
      (.Neu ⟨"f", 0⟩ [.Lam ⟨"z"⟩ (.Neu ⟨"z", 0⟩ [])])) =
    some (.ok (.Lam ⟨"y"⟩ (.Neu ⟨"x", 1⟩ [])
      [(⟨"x"⟩, .Lam ⟨"z"⟩ (.Neu ⟨"z", 0⟩ [])
        [(⟨"f"⟩, .Lam ⟨"x"⟩ (.Lam ⟨"y"⟩ (.Neu ⟨"x", 1⟩ [])) [])])])) := rfl

-- `ulc::syntax::term_builder::tests::test_var`, first two assertions.
example : from_term_builder_to_term [] (.Lam "x" (.Neu ("x", none) [])) =
    .ok (.Lam ⟨"x"⟩ (.Neu ⟨"x", 0⟩ [])) := rfl

example : from_term_builder_to_term []
    (.Def "x" (.Lam "y" (.Neu ("y", none) []))
      (.Neu ("x", none) [])) =
    .ok (.Def ⟨"x"⟩ (.Lam ⟨"y"⟩ (.Neu ⟨"y", 0⟩ []))
      (.Neu ⟨"x", 0⟩ [])) := rfl

-- `ulc::syntax::term_builder::tests::test_var`, third assertion.
example : from_term_builder_to_term []
    (.Def "x" (.Lam "y" (.Neu ("y", none) []))
      (.Neu ("x", none) [.Neu ("x", none) []])) =
    .ok (.Def ⟨"x"⟩ (.Lam ⟨"y"⟩ (.Neu ⟨"y", 0⟩ []))
      (.Neu ⟨"x", 0⟩ [.Neu ⟨"x", 0⟩ []])) := rfl

-- Resolution failure on an unbound name (Scenario C, failing half).
example : from_term_builder_to_term [] (.Neu ("y", none) []) =
    .error (msgUnboundName "y" []) := rfl

-- Runtime lookup failure on a hand-built unbound reference.
example : interpret 1 [] (.Neu ⟨"y", 0⟩ []) =
    some (.error (msgUnboundReference 0 "y")) := rfl

end RepoTests

section RepoTestsFiLang
open FiLang

-- `fi_lang::interpretation::tests::test`, second block: the `let` binder
-- behaves exactly as the `def` binder above.
example : interpret 10 []
    (.Let ⟨"f"⟩
      (.Lam ⟨"x"⟩ (.Lam ⟨"y"⟩ (.Neu ⟨"x", 1⟩ [])))
      (.Neu ⟨"f", 0⟩ [.Lam ⟨"z"⟩ (.Neu ⟨"z", 0⟩ [])])) =
    some (.ok (.Lam ⟨"y"⟩ (.Neu ⟨"x", 1⟩ [])
      [(⟨"x"⟩, .Lam ⟨"z"⟩ (.Neu ⟨"z", 0⟩ [])
        [(⟨"f"⟩, .Lam ⟨"x"⟩ (.Lam ⟨"y"⟩ (.Neu ⟨"x", 1⟩ [])) [])])])) := rfl

end RepoTestsFiLang
